import Mathlib

/-!
Verification of the `ocr-to-training-data` pipeline.

Shallow embedding of the three scripts:
  - `prepare.py` (character-level codec: vocabulary, encode/decode, 90/10 split,
    uint16 serialization, summary self-check),
  - `combine_extracted_texts.py` (consolidation: discovery, sorting, headers,
    placeholder for empty files, summary report),
  - `ocr_google_vision.py` (per-page OCR loop and its error handling).

Text is modelled as `List Char` (Python strings, compared and sorted by code
point, which matches both Python string ordering and the `Char` order).
Fallible operations (Python dict lookups that can raise `KeyError`) return
`Option`.  The IEEE-754 double computation `int(n*0.9)` in `prepare.py` is
modelled exactly over `Nat` (round-to-nearest-even with a 53-bit significand;
the exponent range is irrelevant at these magnitudes).
-/

namespace OcrPipeline

/-! ## Codec (`prepare.py`) -/

/-- Embedding of `chars = sorted(list(set(data)))` (prepare.py line 32): the distinct
characters of the corpus in ascending code-point order.  `List.dedup`
removes duplicates (the `set`), `insertionSort (· ≤ ·)` sorts ascending. -/
def chars (data : List Char) : List Char :=
  List.insertionSort (· ≤ ·) data.dedup

/-- Embedding of `vocab_size = len(chars)` (prepare.py line 33). -/
def vocab_size (data : List Char) : Nat :=
  (chars data).length

/-- Index of a character in a list of characters: position of its first
occurrence, `none` when absent.  This is the lookup behaviour of the Python
dict `stoi = { ch:i for i,ch in enumerate(chars) }`: a missing key raises
`KeyError`, modelled by `none`. -/
def idxLookup (c : Char) : List Char → Option Nat
  | [] => none
  | x :: xs => if x = c then some 0 else (idxLookup c xs).map (· + 1)

/-- Embedding of the dict lookup `stoi[c]` (prepare.py line 39): character-to-integer lookup. -/
def stoi (data : List Char) (c : Char) : Option Nat :=
  idxLookup c (chars data)

/-- Embedding of the dict lookup `itos[i]` (prepare.py line 40): integer-to-character lookup. -/
def itos (data : List Char) (i : Nat) : Option Char :=
  (chars data)[i]?

/-- Embedding of `encode(s) = [stoi[c] for c in s]` (prepare.py lines 42-44).  A single
missing character raises `KeyError`, so the whole call fails: `none`. -/
def encode (data : List Char) : List Char → Option (List Nat)
  | [] => some []
  | c :: s =>
    match stoi data c, encode data s with
    | some i, some is => some (i :: is)
    | _, _ => none

/-- Embedding of decode (prepare.py lines 46-48), which joins `itos[i]` over `i` in `l`. -/
def decode (data : List Char) : List Nat → Option (List Char)
  | [] => some []
  | i :: l =>
    match itos data i, decode data l with
    | some c, some cs => some (c :: cs)
    | _, _ => none

/-- The 53-bit significand of the IEEE-754 double nearest to 0.9:
`0.9 * 2^53 = 8106479329266892.8` rounds to `8106479329266893`, so the double
written `0.9` in `prepare.py` is exactly `8106479329266893 / 2^53`.
Note `10 * 8106479329266893 = 9 * 2^53 + 2`. -/
def floatNineTenths : Nat := 8106479329266893

/-- Number of halvings needed to bring `p` below `2^53` (the first argument
is fuel; `scaleOf` supplies enough).  This is the base-2 exponent by which a
53-bit significand must be scaled to represent a number of the magnitude of
`p`. -/
def scaleAux : Nat → Nat → Nat
  | 0, _ => 0
  | fuel + 1, p => if p < 2 ^ 53 then 0 else scaleAux fuel (p / 2) + 1

/-- Scale of `p`: the smallest `s` with `p / 2^s < 2^53`. -/
def scaleOf (p : Nat) : Nat := scaleAux p p

/-- Round a nonnegative integer to 53 significant bits, ties to even: the
IEEE-754 binary64 rounding of the real number `p` (no overflow at the
magnitudes that occur here).  Used to model both `float(n)` (conversion of a
Python int to a double) and the final rounding of the product `n * 0.9`.
The round-up condition `2^s ≤ 2*r ∧ (2^s < 2*r ∨ q odd)` says: the
discarded remainder `r` exceeds half an ulp, or equals half an ulp exactly
and the kept significand is odd. -/
def fl53 (p : Nat) : Nat :=
  let s := scaleOf p
  let q := p / 2 ^ s
  let r := p % 2 ^ s
  if 2 ^ s ≤ 2 * r ∧ (2 ^ s < 2 * r ∨ q % 2 = 1) then (q + 1) * 2 ^ s
  else q * 2 ^ s

/-- Embedding of `int(n*0.9)` (prepare.py lines 52-53) over the exact model: convert `n`
to a double (`fl53 n`), multiply by the double `0.9` (the exact product is
`fl53 n * floatNineTenths / 2^53`; the hardware rounds it back to 53
significant bits, which is `fl53` of the numerator since the scale `2^53` is
a power of two), then truncate toward zero. -/
def pySplitIdx (n : Nat) : Nat :=
  fl53 (fl53 n * floatNineTenths) / 2 ^ 53

/-- Embedding of `train_data = data[:int(n*0.9)]` (prepare.py line 52). -/
def train_data (data : List Char) : List Char :=
  data.take (pySplitIdx data.length)

/-- Embedding of `val_data = data[int(n*0.9):]` (prepare.py line 53). -/
def val_data (data : List Char) : List Char :=
  data.drop (pySplitIdx data.length)

/-- The numpy `uint16` cast applied when the ids are written to `train.bin`
and `val.bin` (prepare.py lines 68-81): values wrap modulo `2^16`. -/
def toUint16 (t : Nat) : Nat := t % 65536

/-- Code points that Python `str.strip()` removes (the `Py_UNICODE_ISSPACE`
set: ASCII whitespace, the separator control characters, NEL, NBSP and the
Unicode space separators). -/
def isPySpace (c : Char) : Bool :=
  c.toNat ∈ [9, 10, 11, 12, 13, 28, 29, 30, 31, 32, 133, 160, 5760,
    8192, 8193, 8194, 8195, 8196, 8197, 8198, 8199, 8200, 8201, 8202,
    8232, 8233, 8239, 8287, 12288]

/-- Python `s.strip()`: drop leading and trailing whitespace. -/
def pyStrip (l : List Char) : List Char :=
  (((l.dropWhile isPySpace).reverse).dropWhile isPySpace).reverse

/-- Embedding of `test_text = data[:100].strip()` (prepare.py line 133): the text used by
the summary round-trip self-check. -/
def test_text (data : List Char) : List Char :=
  pyStrip (data.take 100)

/-- The `Match` line of the summary self-check (prepare.py lines 134-139):
encode the test text, decode it back, compare with the test text.  A
`KeyError` anywhere would abort the script, modelled as `false`. -/
def sample_match (data : List Char) : Bool :=
  match encode data (test_text data) with
  | none => false
  | some ids =>
    match decode data ids with
    | none => false
    | some t => t == test_text data

/-! ## Consolidation (`combine_extracted_texts.py`) -/

/-- One entry of the scanned base directory (`base_path.iterdir()`), as the
discovery loop inspects it: its name, whether it is a directory, whether it
contains a `complete_extracted_text.txt` artifact, and the raw content of
that artifact. -/
structure DirEntry where
  name : List Char
  isDir : Bool
  hasFile : Bool
  content : List Char
deriving DecidableEq

/-- Lexicographic comparison of Python strings by code point (how `sort`
with a string key orders names). -/
def lexLe : List Char → List Char → Bool
  | [], _ => true
  | _ :: _, [] => false
  | a :: as, b :: bs => if a < b then true else if b < a then false else lexLe as bs

/-- Order on directory entries used by `text_files.sort(key=lambda x: x[0])`
(combine_extracted_texts.py line 30): compare by name only. -/
def nameLe (a b : DirEntry) : Prop := lexLe a.name b.name = true

instance : DecidableRel nameLe :=
  fun a b => inferInstanceAs (Decidable (lexLe a.name b.name = true))

/-- The filter applied during the `iterdir` loop
(combine_extracted_texts.py lines 23-27): keep directories that contain the
artifact. -/
def discovered (entries : List DirEntry) : List DirEntry :=
  entries.filter (fun e => e.isDir && e.hasFile)

/-- Embedding of `find_extracted_text_files` (combine_extracted_texts.py lines 17-32):
collect the qualifying subdirectories, then sort them by name.  Python uses
a stable sort; `insertionSort` is stable as well. -/
def find_extracted_text_files (entries : List DirEntry) : List DirEntry :=
  List.insertionSort nameLe (discovered entries)

/-- The effective content written for one document
(combine_extracted_texts.py lines 68-72): the file content is stripped, and
an empty result is replaced by the literal placeholder. -/
def effContent (raw : List Char) : List Char :=
  let content := pyStrip raw
  if content = [] then "[No text content found]".data else content

/-- One document section of the consolidated output: the separator block
records a sequential index, the directory name and a character count, and is
followed by the document body. -/
structure CombineSection where
  idx : Nat
  name : List Char
  charCount : Nat
  body : List Char
deriving DecidableEq

/-- The per-document sections, numbered from `i`
(`enumerate(text_files, 1)` starts at 1). -/
def mkSections (i : Nat) : List DirEntry → List CombineSection
  | [] => []
  | e :: es =>
    ⟨i, e.name, (effContent e.content).length, effContent e.content⟩ :: mkSections (i + 1) es

/-- Model of the consolidated output file: the header document count, the
document sections in order, and the footer document and character counts. -/
structure CombineOutput where
  totalDocs : Nat
  sections : List CombineSection
  footerDocs : Nat
  footerChars : Nat
deriving DecidableEq

/-- Accumulated `total_chars` (combine_extracted_texts.py line 88): the sum
of the effective (post-placeholder) content lengths. -/
def combineTotalChars : List DirEntry → Nat
  | [] => 0
  | e :: es => (effContent e.content).length + combineTotalChars es

/-- Embedding of `combine_text_files` (combine_extracted_texts.py lines 34-107): with no
input files it returns `False` and writes nothing (`none`); otherwise it
writes the header with the document count, one section per file in the given
order, and the footer. -/
def combine_text_files (text_files : List DirEntry) : Option CombineOutput :=
  if text_files = [] then none
  else some
    { totalDocs := text_files.length
      sections := mkSections 1 text_files
      footerDocs := text_files.length
      footerChars := combineTotalChars text_files }

/-- Model of the consolidation summary report
(combine_extracted_texts.py lines 109-139): document count, total character
count as passed in, and one line per document with the character count
re-derived from the raw (unstripped) file content. -/
structure SummaryReport where
  totalDocs : Nat
  totalChars : Nat
  entries : List (Nat × List Char × Nat)
deriving DecidableEq

/-- The per-document summary lines, numbered from `i`: the character count
is `len(infile.read())`, i.e. the raw content length
(combine_extracted_texts.py lines 129-130). -/
def summaryEntries (i : Nat) : List DirEntry → List (Nat × List Char × Nat)
  | [] => []
  | e :: es => (i, e.name, e.content.length) :: summaryEntries (i + 1) es

/-- Embedding of `generate_summary_report` (combine_extracted_texts.py lines 109-139). -/
def generate_summary_report (text_files : List DirEntry) (total_chars : Nat) : SummaryReport :=
  { totalDocs := text_files.length
    totalChars := total_chars
    entries := summaryEntries 1 text_files }

/-- Sample subdirectory `a_doc` (from the spec example). -/
def entA : DirEntry := ⟨"a_doc".data, true, true, "A".data⟩

/-- Sample subdirectory `b_doc` (from the spec example). -/
def entB : DirEntry := ⟨"b_doc".data, true, true, "B".data⟩

/-- Sample subdirectory whose artifact file is empty. -/
def entEmpty : DirEntry := ⟨"d".data, true, true, []⟩

/-- Sample subdirectory whose artifact content has surrounding whitespace. -/
def entWS : DirEntry := ⟨"doc_a".data, true, true, " a ".data⟩

/-! ## OCR extraction (`ocr_google_vision.py`) -/

/-- Outcome of the Vision API call for one page image, as the extraction
code observes it: an exception raised by the call, an in-band API error
(`response.error.message` non-empty), a detection with the recognized full
text, or a response without any detected text structure. -/
inductive VisionResult where
  | exn (msg : List Char)
  | apiError (msg : List Char)
  | ok (text : List Char)
  | noText
deriving DecidableEq

/-- The part of the `text_info` dict built by `get_detailed_text_info` that
the page loop consumes: the recognized text.  (The per-word confidence
aggregation uses floating-point averages and is not consumed by the
error-handling logic modelled here.) -/
structure TextInfo where
  text : List Char
deriving DecidableEq

/-- Embedding of `extract_text_from_image` (ocr_google_vision.py lines 93-121): standard
text detection.  An API error is returned as the string
`"API Error: ..."`, an exception as `"Error processing image: ..."`, an
empty detection as `"No text detected"`, and a response without annotation
data as `"No text found in image"`. -/
def extract_text_from_image (r : VisionResult) : List Char :=
  match r with
  | .exn msg => "Error processing image: ".data ++ msg
  | .apiError msg => "API Error: ".data ++ msg
  | .ok text => if text = [] then "No text detected".data else text
  | .noText => "No text found in image".data

/-- Embedding of `get_detailed_text_info` (ocr_google_vision.py lines 123-186): detailed
document text detection.  API errors, exceptions and missing annotation
data all yield `None`. -/
def get_detailed_text_info (r : VisionResult) : Option TextInfo :=
  match r with
  | .exn _ => none
  | .apiError _ => none
  | .ok text => some ⟨text⟩
  | .noText => none

/-- The text recorded for one page by the loop body of `process_pdf`
(ocr_google_vision.py lines 227-248): in detailed mode a failed detailed
extraction becomes `"Error processing page"`; in standard mode the string
returned by `extract_text_from_image` is used as is.  A falsy (empty) text
is written as `"No text detected"` (`text or "No text detected"`). -/
def page_text (detailed : Bool) (r : VisionResult) : List Char :=
  let text :=
    if detailed then
      match get_detailed_text_info r with
      | some ti => ti.text
      | none => "Error processing page".data
    else extract_text_from_image r
  if text = [] then "No text detected".data else text

/-- The page loop of `process_pdf` (`for i, page in enumerate(pages, 1)`):
every page is processed in turn and contributes one numbered page record;
nothing aborts the loop, because all per-page failures have already been
turned into in-band values. -/
def processPages (detailed : Bool) (i : Nat) : List VisionResult → List (Nat × List Char)
  | [] => []
  | r :: rs => (i, page_text detailed r) :: processPages detailed (i + 1) rs

/-- Embedding of `process_pdf` (ocr_google_vision.py lines 188-314), restricted to the
per-page extraction records (pages are numbered from 1). -/
def process_pdf (pages : List VisionResult) (detailed : Bool) : List (Nat × List Char) :=
  processPages detailed 1 pages

/-- Whether the Vision API call for a page failed (raised or returned an
in-band error), as opposed to returning a detection result. -/
def isErr : VisionResult → Bool
  | .exn _ => true
  | .apiError _ => true
  | .ok _ => false
  | .noText => false

/-- The in-band error string recorded in standard mode for a failed page
(the return values of `extract_text_from_image` on its two failure paths,
ocr_google_vision.py lines 109-110 and 120-121). -/
def stdErrText : VisionResult → List Char
  | .exn m => "Error processing image: ".data ++ m
  | .apiError m => "API Error: ".data ++ m
  | _ => []

/-! ## Vocabulary lemmas -/

theorem chars_perm_dedup (data : List Char) : (chars data).Perm data.dedup :=
  List.perm_insertionSort _ _

theorem mem_chars {data : List Char} {c : Char} : c ∈ chars data ↔ c ∈ data := by
  rw [(chars_perm_dedup data).mem_iff, List.mem_dedup]

theorem nodup_chars (data : List Char) : (chars data).Nodup :=
  (chars_perm_dedup data).nodup_iff.mpr data.nodup_dedup

theorem sorted_chars (data : List Char) : (chars data).Sorted (· ≤ ·) :=
  List.sorted_insertionSort _ _

theorem pairwise_lt_chars (data : List Char) : (chars data).Pairwise (· < ·) := by
  have h := List.Pairwise.and (sorted_chars data) (nodup_chars data)
  exact h.imp fun hab => lt_of_le_of_ne hab.1 hab.2

theorem idxLookup_eq_none {c : Char} {l : List Char} (h : c ∉ l) : idxLookup c l = none := by
  induction l with
  | nil => rfl
  | cons x xs ih =>
    simp only [List.mem_cons, not_or] at h
    simp [idxLookup, Ne.symm h.1, ih h.2]

theorem idxLookup_isSome {c : Char} {l : List Char} (h : c ∈ l) :
    ∃ i, idxLookup c l = some i := by
  induction l with
  | nil => simp at h
  | cons x xs ih =>
    by_cases hx : x = c
    · exact ⟨0, by simp [idxLookup, hx]⟩
    · rcases ih (by rcases List.mem_cons.mp h with h' | h'; exact absurd h'.symm hx; exact h') with
        ⟨i, hi⟩
      exact ⟨i + 1, by simp [idxLookup, hx, hi]⟩

theorem idxLookup_lt {c : Char} {l : List Char} {i : Nat} (h : idxLookup c l = some i) :
    i < l.length := by
  induction l generalizing i with
  | nil => simp [idxLookup] at h
  | cons x xs ih =>
    by_cases hx : x = c
    · simp [idxLookup, hx] at h
      simp only [List.length_cons]
      omega
    · simp only [idxLookup, if_neg hx, Option.map_eq_some'] at h
      rcases h with ⟨j, hj, rfl⟩
      have := ih hj
      simp only [List.length_cons]
      omega

theorem getElem?_idxLookup {c : Char} {l : List Char} {i : Nat}
    (h : idxLookup c l = some i) : l[i]? = some c := by
  induction l generalizing i with
  | nil => simp [idxLookup] at h
  | cons x xs ih =>
    by_cases hx : x = c
    · simp [idxLookup, hx] at h
      simp [← h, hx]
    · simp only [idxLookup, if_neg hx, Option.map_eq_some'] at h
      rcases h with ⟨j, hj, rfl⟩
      simpa using ih hj

theorem idxLookup_rank {c : Char} {l : List Char} (hs : l.Pairwise (· < ·)) (h : c ∈ l) :
    idxLookup c l = some ((l.filter (fun x => decide (x < c))).length) := by
  induction l with
  | nil => simp at h
  | cons x xs ih =>
    rcases List.pairwise_cons.mp hs with ⟨hx, hxs⟩
    by_cases hxc : x = c
    · subst hxc
      have hnone : ∀ y ∈ xs, ¬(y < x) := fun y hy => not_lt_of_gt (hx y hy)
      have hfil : xs.filter (fun y => decide (y < x)) = [] := by
        apply List.filter_eq_nil_iff.mpr
        intro y hy
        simpa using hnone y hy
      simp [idxLookup, List.filter_cons, hfil]
    · have hc : c ∈ xs := by
        rcases List.mem_cons.mp h with h' | h'
        · exact absurd h'.symm hxc
        · exact h'
      have hlt : x < c := hx c hc
      simp [idxLookup, hxc, ih hxs hc, List.filter_cons, hlt]

/-! ## Encode/decode lemmas -/

theorem stoi_isSome {data : List Char} {c : Char} (h : c ∈ data) :
    ∃ i, stoi data c = some i :=
  idxLookup_isSome (mem_chars.mpr h)

theorem stoi_eq_none {data : List Char} {c : Char} (h : c ∉ data) : stoi data c = none :=
  idxLookup_eq_none (fun hc => h (mem_chars.mp hc))

theorem itos_stoi {data : List Char} {c : Char} {i : Nat} (h : stoi data c = some i) :
    itos data i = some c :=
  getElem?_idxLookup h

theorem stoi_lt {data : List Char} {c : Char} {i : Nat} (h : stoi data c = some i) :
    i < vocab_size data :=
  idxLookup_lt h

/-- Core round trip: a string over the corpus characters encodes
successfully and decodes back to itself. -/
theorem encode_decode_of_subset (data s : List Char) (h : ∀ c ∈ s, c ∈ data) :
    ∃ ids, encode data s = some ids ∧ decode data ids = some s := by
  induction s with
  | nil => exact ⟨[], rfl, rfl⟩
  | cons c cs ih =>
    rcases stoi_isSome (h c (List.mem_cons_self c cs)) with ⟨i, hi⟩
    rcases ih (fun x hx => h x (List.mem_cons_of_mem c hx)) with ⟨ids, hids, hdec⟩
    refine ⟨i :: ids, ?_, ?_⟩
    · simp [encode, hi, hids]
    · simp [decode, itos_stoi hi, hdec]

theorem encode_eq_none (data s : List Char) (h : ∃ c ∈ s, c ∉ data) :
    encode data s = none := by
  induction s with
  | nil => simp at h
  | cons c cs ih =>
    rcases h with ⟨x, hx, hxd⟩
    rcases List.mem_cons.mp hx with rfl | hxs
    · simp [encode, stoi_eq_none hxd]
    · have := ih ⟨x, hxs, hxd⟩
      simp only [encode, this]
      cases stoi data c <;> rfl

theorem encode_mem_lt {data s : List Char} {ids : List Nat} (h : encode data s = some ids) :
    ∀ t ∈ ids, t < vocab_size data := by
  induction s generalizing ids with
  | nil =>
    simp only [encode, Option.some.injEq] at h
    subst h
    simp
  | cons c cs ih =>
    simp only [encode] at h
    cases hi : stoi data c with
    | none => rw [hi] at h; exact absurd h (by simp)
    | some i =>
      rw [hi] at h
      cases hcs : encode data cs with
      | none => rw [hcs] at h; exact absurd h (by simp)
      | some is =>
        rw [hcs] at h
        simp only [Option.some.injEq] at h
        subst h
        intro t ht
        rcases List.mem_cons.mp ht with rfl | ht
        · exact stoi_lt hi
        · exact ih hcs t ht

/-! ## Float model lemmas (for the `int(n*0.9)` split) -/

theorem fl53_def (p : Nat) :
    fl53 p =
      if 2 ^ scaleOf p ≤ 2 * (p % 2 ^ scaleOf p) ∧
          (2 ^ scaleOf p < 2 * (p % 2 ^ scaleOf p) ∨ (p / 2 ^ scaleOf p) % 2 = 1)
      then (p / 2 ^ scaleOf p + 1) * 2 ^ scaleOf p
      else (p / 2 ^ scaleOf p) * 2 ^ scaleOf p := rfl

theorem scaleAux_div_lt : ∀ fuel p, p ≤ fuel → p / 2 ^ scaleAux fuel p < 2 ^ 53 := by
  intro fuel
  induction fuel with
  | zero =>
    intro p hp
    have : p = 0 := Nat.le_zero.mp hp
    subst this
    simp [scaleAux]
  | succ fuel ih =>
    intro p hp
    by_cases h53 : p < 2 ^ 53
    · simp only [scaleAux, if_pos h53]
      simpa using h53
    · have hp0 : 0 < p := lt_of_lt_of_le (by norm_num) (le_of_not_lt h53)
      have hdiv : p / 2 ≤ fuel := by
        have hlt : p / 2 < p := Nat.div_lt_self hp0 one_lt_two
        omega
      simp only [scaleAux, if_neg h53]
      have heq : p / 2 ^ (scaleAux fuel (p / 2) + 1) =
          (p / 2) / 2 ^ scaleAux fuel (p / 2) := by
        rw [Nat.div_div_eq_div_mul, pow_succ, mul_comm]
      rw [heq]
      exact ih _ hdiv

theorem scaleAux_ge :
    ∀ fuel p, p ≤ fuel → 1 ≤ scaleAux fuel p → 2 ^ (52 + scaleAux fuel p) ≤ p := by
  intro fuel
  induction fuel with
  | zero =>
    intro p hp h1
    have : p = 0 := Nat.le_zero.mp hp
    subst this
    simp [scaleAux] at h1
  | succ fuel ih =>
    intro p hp h1
    by_cases h53 : p < 2 ^ 53
    · simp only [scaleAux, if_pos h53] at h1
      exact absurd h1 (by norm_num)
    · have hp0 : 0 < p := lt_of_lt_of_le (by norm_num) (le_of_not_lt h53)
      have hdiv : p / 2 ≤ fuel := by
        have hlt : p / 2 < p := Nat.div_lt_self hp0 one_lt_two
        omega
      simp only [scaleAux, if_neg h53]
      cases ht : scaleAux fuel (p / 2) with
      | zero => simpa using le_of_not_lt h53
      | succ t =>
        have hih := ih (p / 2) hdiv (by omega)
        rw [ht] at hih
        have h2 : 2 ^ (52 + (t + 1)) * 2 ≤ (p / 2) * 2 :=
          Nat.mul_le_mul_right 2 hih
        have h3 : (p / 2) * 2 ≤ p := Nat.div_mul_le_self p 2
        calc 2 ^ (52 + (t + 1 + 1)) = 2 ^ (52 + (t + 1)) * 2 := by ring
          _ ≤ (p / 2) * 2 := h2
          _ ≤ p := h3

theorem scaleOf_div_lt (p : Nat) : p / 2 ^ scaleOf p < 2 ^ 53 :=
  scaleAux_div_lt p p le_rfl

theorem scaleOf_le {p t : Nat} (h : p < 2 ^ (53 + t)) : scaleOf p ≤ t := by
  by_contra hlt
  push_neg at hlt
  have h1 : 1 ≤ scaleOf p := by omega
  have h2 : 2 ^ (52 + scaleOf p) ≤ p := scaleAux_ge p p le_rfl h1
  have h3 : (2 : Nat) ^ (53 + t) ≤ 2 ^ (52 + scaleOf p) :=
    Nat.pow_le_pow_right (by norm_num) (by omega)
  omega

theorem fl53_small {p : Nat} (h : p < 2 ^ 53) : fl53 p = p := by
  have hs : scaleOf p = 0 := Nat.le_zero.mp (scaleOf_le (by simpa using h))
  rw [fl53_def, hs]
  rw [if_neg]
  · simp
  · simp [Nat.mod_one]

/-- Upper error bound of the rounding: `fl53 p ≤ p + ulp/2`, stated
multiplied by 2 to stay in `Nat`. -/
theorem fl53_le (p : Nat) : 2 * fl53 p ≤ 2 * p + 2 ^ scaleOf p := by
  rw [fl53_def]
  set P := 2 ^ scaleOf p with hP
  have h1 : P * (p / P) + p % P = p := Nat.div_add_mod p P
  set q := p / P
  set r := p % P
  split
  · rename_i hcond
    calc 2 * ((q + 1) * P) = 2 * (P * q) + 2 * P := by ring
      _ ≤ 2 * (P * q) + (2 * r + P) := by omega
      _ = 2 * (P * q + r) + P := by ring
      _ = 2 * p + P := by rw [h1]
  · have h2 : q * P ≤ p := by
      calc q * P = P * q := by ring
        _ ≤ P * q + r := Nat.le_add_right _ _
        _ = p := h1
    omega

/-- Lower bound of the rounding against an integer multiple of `2^53` below
`p` (rounding to nearest never crosses a representable value). -/
theorem fl53_ge_mul {p M : Nat} (hs : scaleOf p ≤ 53) (hMp : M * 2 ^ 53 ≤ p) :
    M * 2 ^ 53 ≤ fl53 p := by
  rw [fl53_def]
  set s := scaleOf p with hsdef
  have hpow : (2 : Nat) ^ (53 - s) * 2 ^ s = 2 ^ 53 := by
    rw [← pow_add, Nat.sub_add_cancel hs]
  have hM53 : M * 2 ^ 53 = (M * 2 ^ (53 - s)) * 2 ^ s := by
    rw [mul_assoc, hpow]
  have hq : M * 2 ^ (53 - s) ≤ p / 2 ^ s := by
    rw [Nat.le_div_iff_mul_le (Nat.pos_pow_of_pos s (by norm_num))]
    rw [← hM53]
    exact hMp
  have hq2 : (M * 2 ^ (53 - s)) * 2 ^ s ≤ (p / 2 ^ s) * 2 ^ s :=
    Nat.mul_le_mul_right _ hq
  rw [hM53]
  split
  · calc (M * 2 ^ (53 - s)) * 2 ^ s ≤ (p / 2 ^ s) * 2 ^ s := hq2
      _ ≤ (p / 2 ^ s + 1) * 2 ^ s := Nat.mul_le_mul_right _ (Nat.le_succ _)
  · exact hq2

theorem ten_floatNineTenths : 10 * floatNineTenths = 9 * 2 ^ 53 + 2 := by
  norm_num [floatNineTenths]

/-- For corpus lengths up to `2^50` the double computation `int(n*0.9)`
agrees with the exact floor of `9n/10`. -/
theorem pySplitIdx_eq {n : Nat} (h : n ≤ 2 ^ 50) : pySplitIdx n = 9 * n / 10 := by
  have hn53 : n < 2 ^ 53 := lt_of_le_of_lt h (by norm_num)
  have hfn : fl53 n = n := fl53_small hn53
  rw [pySplitIdx, hfn]
  set p := n * floatNineTenths with hpdef
  set M := 9 * n / 10 with hMdef
  set k := 9 * n % 10 with hkdef
  have hk : k < 10 := Nat.mod_lt _ (by norm_num)
  have h9n : 10 * M + k = 9 * n := by
    rw [hMdef, hkdef]
    omega
  have hkey : 10 * p = (10 * M + k) * 2 ^ 53 + 2 * n := by
    calc 10 * p = n * (10 * floatNineTenths) := by ring
      _ = n * (9 * 2 ^ 53 + 2) := by rw [ten_floatNineTenths]
      _ = (9 * n) * 2 ^ 53 + 2 * n := by ring
      _ = (10 * M + k) * 2 ^ 53 + 2 * n := by rw [h9n]
  have hpbound : p < 2 ^ (53 + 50) := by
    have ha : floatNineTenths < 2 ^ 53 := by norm_num [floatNineTenths]
    have h1 : p ≤ 2 ^ 50 * floatNineTenths := by
      rw [hpdef]
      exact Nat.mul_le_mul_right _ h
    have h2 : 2 ^ 50 * floatNineTenths < 2 ^ 50 * 2 ^ 53 :=
      mul_lt_mul_of_pos_left ha (by norm_num)
    have h3 : (2 : Nat) ^ 50 * 2 ^ 53 = 2 ^ (53 + 50) := by
      rw [← pow_add]
    omega
  have hs50 : scaleOf p ≤ 50 := scaleOf_le hpbound
  have hlo : M * 2 ^ 53 ≤ p := by omega
  have hge : M * 2 ^ 53 ≤ fl53 p := fl53_ge_mul (by omega) hlo
  have hle : 2 * fl53 p ≤ 2 * p + 2 ^ scaleOf p := fl53_le p
  have hpowle : (2 : Nat) ^ scaleOf p ≤ 2 ^ 50 :=
    Nat.pow_le_pow_right (by norm_num) hs50
  have hhi : fl53 p < (M + 1) * 2 ^ 53 := by
    have h50 : (2 : Nat) ^ 50 = 1125899906842624 := by norm_num
    have h53 : (2 : Nat) ^ 53 = 9007199254740992 := by norm_num
    rw [h53]
    rw [h50] at hpowle h
    rw [h53] at hkey
    omega
  have h53 : (2 : Nat) ^ 53 = 9007199254740992 := by norm_num
  rw [h53] at hge hhi
  rw [h53]
  omega

/-! ## Consolidation lemmas -/

theorem lexLe_total : ∀ a b : List Char, lexLe a b = true ∨ lexLe b a = true := by
  intro a
  induction a with
  | nil => intro b; left; rfl
  | cons x xs ih =>
    intro b
    cases b with
    | nil => right; rfl
    | cons y ys =>
      rcases lt_trichotomy x y with hxy | hxy | hxy
      · left
        simp [lexLe, hxy]
      · subst hxy
        rcases ih ys with h | h
        · left
          simp [lexLe, lt_irrefl, h]
        · right
          simp [lexLe, lt_irrefl, h]
      · right
        simp [lexLe, hxy]

theorem lexLe_trans :
    ∀ a b c : List Char, lexLe a b = true → lexLe b c = true → lexLe a c = true := by
  intro a
  induction a with
  | nil => intro b c _ _; rfl
  | cons x xs ih =>
    intro b c hab hbc
    cases b with
    | nil => simp [lexLe] at hab
    | cons y ys =>
      cases c with
      | nil => simp [lexLe] at hbc
      | cons z zs =>
        simp only [lexLe] at hab hbc ⊢
        rcases lt_trichotomy x y with hxy | hxy | hxy
        · rcases lt_trichotomy y z with hyz | hyz | hyz
          · simp [lt_trans hxy hyz]
          · subst hyz
            simp [hxy]
          · rw [if_neg (lt_asymm hyz), if_pos hyz] at hbc
            exact absurd hbc (by simp)
        · subst hxy
          rcases lt_trichotomy x z with hyz | hyz | hyz
          · simp [hyz]
          · subst hyz
            rw [if_neg (lt_irrefl x), if_neg (lt_irrefl x)] at hab hbc ⊢
            exact ih _ _ hab hbc
          · rw [if_neg (lt_asymm hyz), if_pos hyz] at hbc
            exact absurd hbc (by simp)
        · rw [if_neg (lt_asymm hxy), if_pos hxy] at hab
          exact absurd hab (by simp)

theorem lexLe_antisymm :
    ∀ a b : List Char, lexLe a b = true → lexLe b a = true → a = b := by
  intro a
  induction a with
  | nil =>
    intro b _ hba
    cases b with
    | nil => rfl
    | cons y ys => simp [lexLe] at hba
  | cons x xs ih =>
    intro b hab hba
    cases b with
    | nil => simp [lexLe] at hab
    | cons y ys =>
      simp only [lexLe] at hab hba
      rcases lt_trichotomy x y with hxy | hxy | hxy
      · rw [if_neg (lt_asymm hxy), if_pos hxy] at hba
        exact absurd hba (by simp)
      · subst hxy
        rw [if_neg (lt_irrefl x), if_neg (lt_irrefl x)] at hab hba
        rw [ih ys hab hba]
      · rw [if_neg (lt_asymm hxy), if_pos hxy] at hab
        exact absurd hab (by simp)

theorem nameLe_total (a b : DirEntry) : nameLe a b ∨ nameLe b a :=
  lexLe_total a.name b.name

theorem nameLe_trans {a b c : DirEntry} (hab : nameLe a b) (hbc : nameLe b c) : nameLe a c :=
  lexLe_trans a.name b.name c.name hab hbc

/-- A list sorted by name, permuted into another list sorted by name, with
no two entries sharing a name, is unchanged: the sort result is independent
of the enumeration order of its input. -/
theorem sorted_perm_nodup_eq :
    ∀ l₁ l₂ : List DirEntry, l₁.Pairwise nameLe → l₂.Pairwise nameLe →
      l₁.Perm l₂ → (l₁.map DirEntry.name).Nodup → l₁ = l₂ := by
  intro l₁
  induction l₁ with
  | nil =>
    intro l₂ _ _ hp _
    exact (hp.nil_eq).symm ▸ rfl
  | cons a t₁ ih =>
    intro l₂ h₁ h₂ hp hnd
    cases l₂ with
    | nil => exact absurd hp.symm.nil_eq (by simp)
    | cons b t₂ =>
      rcases List.pairwise_cons.mp h₁ with ⟨ha, ht₁⟩
      rcases List.pairwise_cons.mp h₂ with ⟨hb, ht₂⟩
      by_cases hab : a = b
      · subst hab
        have htp : t₁.Perm t₂ := hp.cons_inv
        have hndt : (t₁.map DirEntry.name).Nodup := by
          simpa using (List.nodup_cons.mp (by simpa using hnd)).2
        rw [ih t₂ ht₁ ht₂ htp hndt]
      · have hbmem : b ∈ a :: t₁ := hp.symm.subset (List.mem_cons_self b t₂)
        have hamem : a ∈ b :: t₂ := hp.subset (List.mem_cons_self a t₁)
        have hbt₁ : b ∈ t₁ := by
          rcases List.mem_cons.mp hbmem with h | h
          · exact absurd h.symm hab
          · exact h
        have hat₂ : a ∈ t₂ := by
          rcases List.mem_cons.mp hamem with h | h
          · exact absurd h hab
          · exact h
        have h1 : nameLe a b := ha b hbt₁
        have h2 : nameLe b a := hb a hat₂
        have hname : a.name = b.name := lexLe_antisymm a.name b.name h1 h2
        have : a.name ∈ t₁.map DirEntry.name := by
          rw [hname]
          exact List.mem_map_of_mem DirEntry.name hbt₁
        rw [List.map_cons, List.nodup_cons] at hnd
        exact absurd this hnd.1

theorem find_perm (entries : List DirEntry) :
    (find_extracted_text_files entries).Perm (discovered entries) :=
  List.perm_insertionSort _ _

theorem find_sorted (entries : List DirEntry) :
    (find_extracted_text_files entries).Pairwise nameLe := by
  letI : IsTotal DirEntry nameLe := ⟨nameLe_total⟩
  letI : IsTrans DirEntry nameLe := ⟨fun _ _ _ => nameLe_trans⟩
  exact List.sorted_insertionSort nameLe (discovered entries)

theorem mkSections_map_name (i : Nat) (l : List DirEntry) :
    (mkSections i l).map CombineSection.name = l.map DirEntry.name := by
  induction l generalizing i with
  | nil => rfl
  | cons e es ih => simp [mkSections, ih]

theorem mkSections_length (i : Nat) (l : List DirEntry) :
    (mkSections i l).length = l.length := by
  induction l generalizing i with
  | nil => rfl
  | cons e es ih => simp [mkSections, ih]

theorem mkSections_mem {e : DirEntry} {l : List DirEntry} (i : Nat) (h : e ∈ l) :
    ∃ s ∈ mkSections i l, s.name = e.name ∧ s.body = effContent e.content := by
  induction l generalizing i with
  | nil => simp at h
  | cons x xs ih =>
    rcases List.mem_cons.mp h with rfl | hx
    · exact ⟨⟨i, e.name, (effContent e.content).length, effContent e.content⟩,
        List.mem_cons_self _ _, rfl, rfl⟩
    · rcases ih (i + 1) hx with ⟨s, hs, hn, hb⟩
      exact ⟨s, List.mem_cons_of_mem _ hs, hn, hb⟩

theorem summaryEntries_length (i : Nat) (l : List DirEntry) :
    (summaryEntries i l).length = l.length := by
  induction l generalizing i with
  | nil => rfl
  | cons e es ih => simp [summaryEntries, ih]

/-! ## OCR page-loop lemmas -/

theorem processPages_length (detailed : Bool) (i : Nat) (pages : List VisionResult) :
    (processPages detailed i pages).length = pages.length := by
  induction pages generalizing i with
  | nil => rfl
  | cons r rs ih => simp [processPages, ih]

theorem processPages_getElem? (detailed : Bool) (i j : Nat) (pages : List VisionResult) :
    (processPages detailed i pages)[j]? =
      (pages[j]?).map (fun r => (i + j, page_text detailed r)) := by
  induction pages generalizing i j with
  | nil => simp [processPages]
  | cons r rs ih =>
    cases j with
    | zero => simp [processPages]
    | succ j =>
      simp only [processPages, List.getElem?_cons_succ, ih (i + 1) j]
      cases rs[j]? with
      | none => rfl
      | some r' =>
        simp only [Option.map_some']
        congr 2
        omega

/-! ## Auxiliary nonemptiness facts for the OCR error strings -/

theorem errPage_ne_nil : "Error processing page".data ≠ [] := by decide

theorem errImage_ne_nil (m : List Char) : "Error processing image: ".data ++ m ≠ [] := by
  intro h
  have h2 := congrArg List.length h
  rw [List.length_append] at h2
  simp at h2

theorem apiErr_ne_nil (m : List Char) : "API Error: ".data ++ m ≠ [] := by
  intro h
  have h2 := congrArg List.length h
  rw [List.length_append] at h2
  simp at h2

theorem pyStrip_subset {l : List Char} {c : Char} (h : c ∈ pyStrip l) : c ∈ l := by
  rw [pyStrip, List.mem_reverse] at h
  have h1 := (List.dropWhile_sublist (l := (l.dropWhile isPySpace).reverse)
    (p := isPySpace)).mem h
  rw [List.mem_reverse] at h1
  exact (List.dropWhile_sublist (l := l) (p := isPySpace)).mem h1

/-! ## Claim theorems -/

/-- C1: for every string `s` all of whose characters occur in the corpus
`data`, `decode (encode s) = s`: encoding maps each character through
`stoi` and decoding maps each integer back through `itos`. -/
theorem C1_decode_encode (data s : List Char) (h : ∀ c ∈ s, c ∈ data) :
    (encode data s).bind (decode data) = some s := by
  rcases encode_decode_of_subset data s h with ⟨ids, he, hd⟩
  rw [he]
  exact hd

theorem C1_witness :
    (encode "aabc".data "cab".data).bind (decode "aabc".data) = some "cab".data :=
  C1_decode_encode "aabc".data "cab".data (by decide)

/-- C2: the vocabulary size equals the number of distinct characters of the
corpus, the key set of `stoi` is exactly the set of characters occurring in
the corpus, and the index of each character is its rank in ascending
code-point order among the distinct characters (the number of distinct
corpus characters with a strictly smaller code point). -/
theorem C2_vocabulary (data : List Char) :
    vocab_size data = data.dedup.length ∧
    vocab_size data = data.toFinset.card ∧
    (∀ c : Char, (stoi data c).isSome ↔ c ∈ data) ∧
    (∀ c : Char, c ∈ data →
      stoi data c = some ((data.dedup.filter (fun x => decide (x < c))).length)) := by
  refine ⟨(chars_perm_dedup data).length_eq, ?_, ?_, ?_⟩
  · exact ((chars_perm_dedup data).length_eq).trans (List.card_toFinset data).symm
  · intro c
    constructor
    · intro hs
      by_contra hc
      rw [stoi_eq_none hc] at hs
      exact absurd hs (by simp)
    · intro hc
      rcases stoi_isSome hc with ⟨i, hi⟩
      simp [hi]
  · intro c hc
    have hrank := idxLookup_rank (pairwise_lt_chars data) (mem_chars.mpr hc)
    rw [stoi, hrank]
    have hfil :=
      ((chars_perm_dedup data).filter (fun x => decide (x < c))).length_eq
    rw [hfil]

theorem C2_witness :
    ('b' ∈ "aabc".data) ∧
      stoi "aabc".data 'b' =
        some (("aabc".data.dedup.filter (fun x => decide (x < 'b'))).length) :=
  ⟨by decide, (C2_vocabulary "aabc".data).2.2.2 'b' (by decide)⟩

/-- C3 counterexample: the claim asserts `len(train_split) = floor(9n/10)`
for every corpus length `n`, but the code computes the boundary as
`int(n*0.9)` with IEEE-754 doubles.  At `n = 1250999896491811` the double
product rounds up across an integer, so the training split is exactly one
character too long: the code takes `floor(9n/10) + 1 = 1125899906842630`
characters while the exact floor is `1125899906842629`. -/
theorem C3_counterexample :
    (train_data (List.replicate 1250999896491811 'a')).length ≠
      9 * (List.replicate 1250999896491811 'a' : List Char).length / 10 ∧
    (train_data (List.replicate 1250999896491811 'a')).length =
      9 * (List.replicate 1250999896491811 'a' : List Char).length / 10 + 1 := by
  constructor
  · simp only [train_data, List.length_take, List.length_replicate]
    decide
  · simp only [train_data, List.length_take, List.length_replicate]
    decide

/-- C3 (amended): for every corpus, the two splits partition it,
`len(train) + len(val) = n` unconditionally; and `len(train) = floor(9n/10)`
exactly holds for every corpus of length at most `2^50` (it fails for some
larger lengths, where the double computation `int(n*0.9)` rounds up). -/
theorem C3_split (data : List Char) :
    (train_data data).length + (val_data data).length = data.length ∧
    (data.length ≤ 2 ^ 50 →
      (train_data data).length = 9 * data.length / 10) := by
  constructor
  · simp only [train_data, val_data, List.length_take, List.length_drop]
    omega
  · intro h
    simp only [train_data, List.length_take]
    rw [pySplitIdx_eq h]
    omega

theorem C3_witness :
    ((train_data "aabc".data).length + (val_data "aabc".data).length =
        "aabc".data.length ∧
      ("aabc".data.length ≤ 2 ^ 50 →
        (train_data "aabc".data).length = 9 * "aabc".data.length / 10)) ∧
    (train_data "aabc".data).length = 9 * "aabc".data.length / 10 :=
  ⟨C3_split "aabc".data, (C3_split "aabc".data).2 (by norm_num)⟩

/-- C4: encoding a string containing a character absent from the corpus
fails (the per-character `stoi` lookup raises), and never silently maps the
unknown character to a default index. -/
theorem C4_encode_oov (data s : List Char) (h : ∃ c ∈ s, c ∉ data) :
    encode data s = none :=
  encode_eq_none data s h

theorem C4_witness : encode "ab".data "abx".data = none :=
  C4_encode_oov "ab".data "abx".data ⟨'x', by decide, by decide⟩

/-- C7 counterexample: the claim says the self-check encodes a fixed-length
prefix of the corpus, but `test_text = data[:100].strip()` strips
whitespace.  For the corpus `" a"` the test text is `"a"`, which differs
from every corpus prefix of its length, so it is not a prefix at all. -/
theorem C7_counterexample :
    test_text " a".data ≠ (" a".data).take (test_text " a".data).length := by
  decide

/-- C7 (amended): the summary self-check takes the first up-to-100
characters of the corpus stripped of leading and trailing whitespace as its
test text, encodes it, decodes the result, and the reported equality
comparison (`Match:`) succeeds for every corpus. -/
theorem C7_sample_match (data : List Char) : sample_match data = true := by
  have hsub : ∀ c ∈ test_text data, c ∈ data := by
    intro c hc
    exact List.mem_of_mem_take (pyStrip_subset hc)
  rcases encode_decode_of_subset data (test_text data) hsub with ⟨ids, he, hd⟩
  simp [sample_match, he, hd]

/-- C9: every integer produced by a successful `encode` is below
`vocab_size`; hence when `vocab_size ≤ 65536` the `uint16` cast applied
when writing `train.bin`/`val.bin` is the identity on the ids (no
wraparound). -/
theorem C9_token_range (data s : List Char) (ids : List Nat)
    (h : encode data s = some ids) :
    (∀ t ∈ ids, t < vocab_size data) ∧
    (vocab_size data ≤ 65536 → ids.map toUint16 = ids) := by
  have hlt := encode_mem_lt h
  refine ⟨hlt, fun hv => ?_⟩
  have hid : ∀ t ∈ ids, toUint16 t = t := fun t ht =>
    Nat.mod_eq_of_lt (lt_of_lt_of_le (hlt t ht) hv)
  calc ids.map toUint16 = ids.map id := List.map_congr_left hid
    _ = ids := List.map_id ids

theorem C9_witness :
    (encode "aabc".data "abc".data = some [0, 1, 2]) ∧
      ((∀ t ∈ [0, 1, 2], t < vocab_size "aabc".data) ∧
        (vocab_size "aabc".data ≤ 65536 → [0, 1, 2].map toUint16 = [0, 1, 2])) :=
  ⟨by decide, C9_token_range "aabc".data "abc".data [0, 1, 2] (by decide)⟩

/-- C5: for every discovery (and every filesystem enumeration order of the
same set of entries), the consolidated output has exactly one document
header per discovered subdirectory, the headers appear in ascending
lexicographic order of subdirectory name, and the discovered list is
independent of the enumeration order.  Distinct subdirectories of one
directory necessarily have distinct names. -/
theorem C5_header_order (entries entries' : List DirEntry)
    (hperm : entries'.Perm entries)
    (hnd : ((discovered entries).map DirEntry.name).Nodup)
    (hne : discovered entries ≠ []) :
    ((find_extracted_text_files entries).map DirEntry.name).Perm
        ((discovered entries).map DirEntry.name) ∧
    ((find_extracted_text_files entries).map DirEntry.name).Pairwise
        (fun a b => lexLe a b = true) ∧
    find_extracted_text_files entries' = find_extracted_text_files entries ∧
    ∃ o, combine_text_files (find_extracted_text_files entries) = some o ∧
      o.sections.map CombineSection.name =
          (find_extracted_text_files entries).map DirEntry.name ∧
      o.sections.length = (discovered entries).length := by
  refine ⟨(find_perm entries).map _, ?_, ?_, ?_⟩
  · rw [List.pairwise_map]
    exact find_sorted entries
  · have hnd' : ((discovered entries').map DirEntry.name).Nodup :=
      ((hperm.filter _).map DirEntry.name).nodup_iff.mpr hnd
    have hndf : ((find_extracted_text_files entries').map DirEntry.name).Nodup :=
      ((find_perm entries').map DirEntry.name).nodup_iff.mpr hnd'
    exact sorted_perm_nodup_eq _ _ (find_sorted entries') (find_sorted entries)
      ((find_perm entries').trans ((hperm.filter _).trans (find_perm entries).symm)) hndf
  · have htf : find_extracted_text_files entries ≠ [] := by
      intro h
      apply hne
      have hp := find_perm entries
      rw [h] at hp
      exact hp.nil_eq.symm
    refine ⟨⟨(find_extracted_text_files entries).length,
      mkSections 1 (find_extracted_text_files entries),
      (find_extracted_text_files entries).length,
      combineTotalChars (find_extracted_text_files entries)⟩, ?_, ?_, ?_⟩
    · rw [combine_text_files, if_neg htf]
    · exact mkSections_map_name 1 _
    · rw [mkSections_length]
      exact (find_perm entries).length_eq

theorem C5_witness :
    (([entA, entB] : List DirEntry).Perm [entB, entA] ∧
      ((discovered [entB, entA]).map DirEntry.name).Nodup ∧
      discovered [entB, entA] ≠ []) ∧
    (((find_extracted_text_files [entB, entA]).map DirEntry.name).Perm
        ((discovered [entB, entA]).map DirEntry.name) ∧
      ((find_extracted_text_files [entB, entA]).map DirEntry.name).Pairwise
        (fun a b => lexLe a b = true) ∧
      find_extracted_text_files [entA, entB] = find_extracted_text_files [entB, entA] ∧
      ∃ o, combine_text_files (find_extracted_text_files [entB, entA]) = some o ∧
        o.sections.map CombineSection.name =
            (find_extracted_text_files [entB, entA]).map DirEntry.name ∧
        o.sections.length = (discovered [entB, entA]).length) :=
  ⟨⟨by decide, by decide, by decide⟩,
    C5_header_order [entB, entA] [entA, entB] (by decide) (by decide) (by decide)⟩

/-- C6: a discovered document file with empty content yields a section in
the consolidated output whose body is the literal placeholder
`"[No text content found]"` rather than being omitted, and the document
counts of the output and of the summary report still include it. -/
theorem C6_empty_placeholder (text_files : List DirEntry) (e : DirEntry)
    (he : e ∈ text_files) (hempty : e.content = []) (o : CombineOutput)
    (ho : combine_text_files text_files = some o) :
    (∃ s ∈ o.sections, s.name = e.name ∧ s.body = "[No text content found]".data) ∧
    o.totalDocs = text_files.length ∧
    o.sections.length = text_files.length ∧
    (generate_summary_report text_files o.footerChars).totalDocs = text_files.length ∧
    ((generate_summary_report text_files o.footerChars).entries).length =
      text_files.length := by
  have htf : text_files ≠ [] := by
    rintro rfl
    simp at he
  rw [combine_text_files, if_neg htf] at ho
  have ho' := Option.some.inj ho
  subst ho'
  refine ⟨?_, rfl, mkSections_length 1 _, rfl, summaryEntries_length 1 _⟩
  rcases mkSections_mem 1 he with ⟨s, hs, hn, hb⟩
  refine ⟨s, hs, hn, ?_⟩
  rw [hb, hempty]
  rfl

theorem C6_witness :
    (entEmpty ∈ [entEmpty] ∧ entEmpty.content = []) ∧
    ((∃ s ∈ (⟨1, [⟨1, "d".data, 23, "[No text content found]".data⟩], 1, 23⟩ :
          CombineOutput).sections,
        s.name = entEmpty.name ∧ s.body = "[No text content found]".data) ∧
      (⟨1, [⟨1, "d".data, 23, "[No text content found]".data⟩], 1, 23⟩ :
          CombineOutput).totalDocs = [entEmpty].length ∧
      (⟨1, [⟨1, "d".data, 23, "[No text content found]".data⟩], 1, 23⟩ :
          CombineOutput).sections.length = [entEmpty].length ∧
      (generate_summary_report [entEmpty]
          (⟨1, [⟨1, "d".data, 23, "[No text content found]".data⟩], 1, 23⟩ :
            CombineOutput).footerChars).totalDocs = [entEmpty].length ∧
      ((generate_summary_report [entEmpty]
          (⟨1, [⟨1, "d".data, 23, "[No text content found]".data⟩], 1, 23⟩ :
            CombineOutput).footerChars).entries).length = [entEmpty].length) :=
  ⟨⟨by decide, rfl⟩,
    C6_empty_placeholder [entEmpty] entEmpty (by decide) rfl
      ⟨1, [⟨1, "d".data, 23, "[No text content found]".data⟩], 1, 23⟩ (by decide)⟩

/-- C8 counterexample: in standard (non-detailed) mode an exception during
extraction is recorded as `"Error processing image: ..."`, not as the
page-level text `"Error processing page"` the claim requires for any API or
conversion error. -/
theorem C8_counterexample :
    isErr (VisionResult.exn "boom".data) = true ∧
    (process_pdf [VisionResult.exn "boom".data] false)[0]? ≠
      some (1, "Error processing page".data) := by
  exact ⟨rfl, by decide⟩

/-- C8 (amended): a page whose extraction fails never aborts the document:
every page still contributes exactly one record, and the failing page's
recorded text is `"Error processing page"` in detailed mode, and the
in-band error string (`"API Error: ..."` or
`"Error processing image: ..."`) in standard mode. -/
theorem C8_page_errors (pages : List VisionResult) (detailed : Bool) (i : Nat)
    (r : VisionResult) (hi : pages[i]? = some r) (herr : isErr r = true) :
    (process_pdf pages detailed).length = pages.length ∧
    (process_pdf pages detailed)[i]? =
      some (i + 1,
        if detailed then "Error processing page".data else stdErrText r) := by
  refine ⟨processPages_length _ _ _, ?_⟩
  rw [process_pdf, processPages_getElem? detailed 1 i pages, hi]
  simp only [Option.map_some']
  refine congrArg some (Prod.ext ?_ ?_)
  · simpa using Nat.add_comm 1 i
  · cases r with
    | exn m =>
      cases detailed with
      | false =>
        simp only [page_text, extract_text_from_image, stdErrText, Bool.false_eq_true,
          if_false]
        rw [if_neg (errImage_ne_nil m)]
      | true =>
        simp only [page_text, get_detailed_text_info, if_true]
        rw [if_neg errPage_ne_nil]
    | apiError m =>
      cases detailed with
      | false =>
        simp only [page_text, extract_text_from_image, stdErrText, Bool.false_eq_true,
          if_false]
        rw [if_neg (apiErr_ne_nil m)]
      | true =>
        simp only [page_text, get_detailed_text_info, if_true]
        rw [if_neg errPage_ne_nil]
    | ok t => simp [isErr] at herr
    | noText => simp [isErr] at herr

theorem C8_witness :
    (([VisionResult.ok "hi".data, VisionResult.apiError "q".data][1]? =
        some (VisionResult.apiError "q".data)) ∧
      isErr (VisionResult.apiError "q".data) = true) ∧
    ((process_pdf [VisionResult.ok "hi".data, VisionResult.apiError "q".data] true).length =
        ([VisionResult.ok "hi".data, VisionResult.apiError "q".data] :
          List VisionResult).length ∧
      (process_pdf [VisionResult.ok "hi".data, VisionResult.apiError "q".data] true)[1]? =
        some (1 + 1,
          if true then "Error processing page".data
          else stdErrText (VisionResult.apiError "q".data))) :=
  ⟨⟨rfl, rfl⟩,
    C8_page_errors [VisionResult.ok "hi".data, VisionResult.apiError "q".data] true 1
      (VisionResult.apiError "q".data) rfl rfl⟩

/-- C10: for a document file whose content has surrounding whitespace
(here `" a "`), the character count in the header block of the consolidated output
(computed on the stripped content: 1) is strictly less than the count for
the same file in the summary report (computed on the raw content: 3). -/
theorem C10_char_count_disagreement :
    (combine_text_files [entWS]).map (fun o => o.sections.map CombineSection.charCount) =
      some [1] ∧
    (generate_summary_report [entWS] 1).entries.map (fun t => t.2.2) = [3] ∧
    (1 : Nat) < 3 :=
  ⟨by decide, by decide, by decide⟩

end OcrPipeline
